import Mathlib

/-!
Verification of the core of `memelink-cli`: the Memegen text codec
(`internal/encoding`: `Encode`, `Decode`) and the resilient HTTP transport
(`internal/api`: `retryTransport.RoundTrip`, `shouldRetry`,
`loggingTransport.RoundTrip`).

Go strings are modelled as `List Char`; `strings.ReplaceAll` is modelled by
`replaceAll` (leftmost, non-overlapping replacement).  The retry transport is
modelled as a recursive function over the remaining retry budget, with the
underlying `http.RoundTripper` abstracted as a function from the attempt
index to a transport-level outcome, and the request context's cancellation
behaviour abstracted as a per-wait boolean.
-/

namespace Memelink

/-! ## Model of `strings.ReplaceAll` -/

/-- Fuel-driven worker for `replaceAll`; the fuel only serves to make the
definition structurally recursive, it is irrelevant as soon as it is at
least the length of the subject string. -/
def replaceAllGo (pat rep : List Char) : Nat → List Char → List Char
  | 0, s => s
  | fuel + 1, s =>
    if pat ≠ [] ∧ pat.isPrefixOf s then
      rep ++ replaceAllGo pat rep fuel (s.drop pat.length)
    else
      match s with
      | [] => []
      | c :: t => c :: replaceAllGo pat rep fuel t

/-- Model of Go `strings.ReplaceAll pat rep`: replace every leftmost,
non-overlapping occurrence of `pat` by `rep` (patterns used by the codec are
always nonempty). -/
def replaceAll (pat rep s : List Char) : List Char :=
  replaceAllGo pat rep s.length s

/-! ## The codec (`internal/encoding/encoding.go`) -/

/-- `Encode` from `internal/encoding`: escape `_` and `-` by doubling, then
spaces to `_`, then the ten special characters, in source order. -/
def Encode (text : List Char) : List Char :=
  let t := replaceAll ['_'] ['_', '_'] text
  let t := replaceAll ['-'] ['-', '-'] t
  let t := replaceAll [' '] ['_'] t
  let t := replaceAll ['?'] ['~', 'q'] t
  let t := replaceAll ['%'] ['~', 'p'] t
  let t := replaceAll ['#'] ['~', 'h'] t
  let t := replaceAll ['"'] ['\'', '\''] t
  let t := replaceAll ['/'] ['~', 's'] t
  let t := replaceAll ['\\'] ['~', 'b'] t
  let t := replaceAll ['\n'] ['~', 'n'] t
  let t := replaceAll ['&'] ['~', 'a'] t
  let t := replaceAll ['<'] ['~', 'l'] t
  let t := replaceAll ['>'] ['~', 'g'] t
  t

/-- `Decode` from `internal/encoding`: tilde/quote escapes first, then the
underscore placeholder technique (`__` → `\x00`, `_` → space, `\x00` → `_`),
then the dash placeholder technique (`--` → `\x01`, `\x01` → `-`), in source
order. -/
def Decode (text : List Char) : List Char :=
  let t := replaceAll ['~', 'q'] ['?'] text
  let t := replaceAll ['~', 'p'] ['%'] t
  let t := replaceAll ['~', 'h'] ['#'] t
  let t := replaceAll ['~', 'a'] ['&'] t
  let t := replaceAll ['~', 'l'] ['<'] t
  let t := replaceAll ['~', 'g'] ['>'] t
  let t := replaceAll ['~', 'b'] ['\\'] t
  let t := replaceAll ['~', 's'] ['/'] t
  let t := replaceAll ['~', 'n'] ['\n'] t
  let t := replaceAll ['\'', '\''] ['"'] t
  let t := replaceAll ['_', '_'] ['\x00'] t
  let t := replaceAll ['_'] [' '] t
  let t := replaceAll ['\x00'] ['_'] t
  let t := replaceAll ['-', '-'] ['\x01'] t
  let t := replaceAll ['\x01'] ['-'] t
  t

/-- The letters that may follow `~` in an encoded escape sequence. -/
def tildeLetters : List Char := ['q', 'p', 'h', 'a', 'l', 'g', 'b', 's', 'n']

/-- A pair of adjacent input characters that survives the round trip:
no literal `~` directly before an escape letter, no apostrophe directly
before an apostrophe or a double quote, and no space directly before a
space or an underscore. -/
def Safe (c d : Char) : Prop :=
  ¬(c = '~' ∧ d ∈ tildeLetters) ∧
  ¬(c = '\'' ∧ (d = '\'' ∨ d = '"')) ∧
  ¬(c = ' ' ∧ (d = ' ' ∨ d = '_'))

instance : DecidableRel Safe := fun c d =>
  inferInstanceAs (Decidable (¬(c = '~' ∧ d ∈ tildeLetters) ∧
    ¬(c = '\'' ∧ (d = '\'' ∨ d = '"')) ∧ ¬(c = ' ' ∧ (d = ' ' ∨ d = '_'))))

/-- Inputs on which the codec round-trips: no placeholder control byte
(`\x00`, `\x01`) and every adjacent pair is `Safe`. -/
def Good (s : List Char) : Prop :=
  (∀ c ∈ s, c ≠ '\x00' ∧ c ≠ '\x01') ∧ s.Chain' Safe

/-- A kernel-computable decision procedure for `Chain' Safe`. -/
instance decSafeChain : (l : List Char) → Decidable (List.Chain' Safe l)
  | [] => isTrue (by simp)
  | [c] => isTrue (by simp)
  | a :: b :: t =>
    haveI := decSafeChain (b :: t)
    decidable_of_iff (Safe a b ∧ List.Chain' Safe (b :: t)) List.chain'_cons.symm

instance : DecidablePred Good := fun s =>
  inferInstanceAs (Decidable ((∀ c ∈ s, c ≠ '\x00' ∧ c ≠ '\x01') ∧ s.Chain' Safe))

/-- Whether a string contains three or more consecutive literal spaces
(the exception named by the specification's round-trip property). -/
def hasTripleSpace : List Char → Bool
  | ' ' :: ' ' :: ' ' :: _ => true
  | _ :: t => hasTripleSpace t
  | [] => false

/-- A chunk that can never interact with the two-character pattern `[a, b]`
beyond its own boundary: a single character, or a pair distinct from the
pattern whose second character is not `a`. -/
def Chunk2OK (a b : Char) (l : List Char) : Prop :=
  (∃ x, l = [x]) ∨ (∃ x y, l = [x, y] ∧ ¬(x = a ∧ y = b) ∧ y ≠ a)

/-- The image of a single character under the whole encoding pipeline. -/
def encChar (c : Char) : List Char :=
  if c = '_' then ['_', '_']
  else if c = '-' then ['-', '-']
  else if c = ' ' then ['_']
  else if c = '?' then ['~', 'q']
  else if c = '%' then ['~', 'p']
  else if c = '#' then ['~', 'h']
  else if c = '"' then ['\'', '\'']
  else if c = '/' then ['~', 's']
  else if c = '\\' then ['~', 'b']
  else if c = '\n' then ['~', 'n']
  else if c = '&' then ['~', 'a']
  else if c = '<' then ['~', 'l']
  else if c = '>' then ['~', 'g']
  else [c]

/-- The tilde escape table, as (escape letter, original character) pairs. -/
def tildeTable : List (Char × Char) :=
  [('q', '?'), ('p', '%'), ('h', '#'), ('a', '&'), ('l', '<'), ('g', '>'),
   ('b', '\\'), ('s', '/'), ('n', '\n')]

/-- Chunk function after the escapes for the characters in `R` have been
restored: a restored character stands alone, anything else still shows its
encoded chunk. -/
def chunkAt (R : List Char) (c : Char) : List Char :=
  if c ∈ R then [c] else encChar c

/-- Chunk function for the whole encoding once every escape sequence from
step 3 of `Encode` has been restored. -/
def e12 (c : Char) : List Char :=
  if c = '_' then ['_', '_']
  else if c = '-' then ['-', '-']
  else if c = ' ' then ['_']
  else [c]

/-- Chunk function after `__` has been replaced by the placeholder `\x00`. -/
def d11 (c : Char) : List Char :=
  if c = '_' then ['\x00']
  else if c = '-' then ['-', '-']
  else if c = ' ' then ['_']
  else [c]

/-- Chunk function after single `_` has been replaced by a space. -/
def d12 (c : Char) : List Char :=
  if c = '_' then ['\x00']
  else if c = '-' then ['-', '-']
  else if c = ' ' then [' ']
  else [c]

/-- Chunk function after the placeholder `\x00` has been replaced by `_`. -/
def d13 (c : Char) : List Char :=
  if c = '_' then ['_']
  else if c = '-' then ['-', '-']
  else if c = ' ' then [' ']
  else [c]

/-- Chunk function after `--` has been replaced by the placeholder `\x01`. -/
def d14 (c : Char) : List Char :=
  if c = '_' then ['_']
  else if c = '-' then ['\x01']
  else if c = ' ' then [' ']
  else [c]

/-! ## Model of the resilient transport (`internal/api/client.go`) -/

/-- Go error values: a base error or an error produced by
`fmt.Errorf("context: %w", err)`. -/
inductive GoError where
  | simple (msg : String)
  | wrapped (msg : String) (inner : GoError)
deriving DecidableEq

/-- An HTTP response, identified by the attempt that produced it (standing
for its body stream) together with its status code. -/
structure Response where
  attempt : Nat
  status : Int
deriving DecidableEq

/-- Outcome of one call of the underlying `http.RoundTripper`. -/
inductive BaseResult where
  | err (e : GoError)
  | resp (status : Int)

/-- The aspects of an `*http.Request` the retry transport looks at:
whether a re-readable body is attached (`Body != nil && GetBody != nil`),
whether `GetBody` fails at a given attempt, and whether the request
context's cancellation fires during the backoff wait after a given
attempt. -/
structure Request where
  hasBody : Bool
  getBodyErr : Nat → Option GoError
  ctxDoneDuringWait : Nat → Bool
  ctxErr : GoError

/-- The observable outcome of `retryTransport.RoundTrip`: the returned
`(resp, err)` pair, the number of calls made to the underlying transport,
and the attempt indices whose response bodies were closed, in order. -/
structure RunResult where
  resp : Option Response
  err : Option GoError
  calls : Nat
  closed : List Nat
deriving DecidableEq

/-- `shouldRetry` from `internal/api/client.go`: true for 429 and for
500 through 504 (`http.StatusInternalServerError` to
`http.StatusGatewayTimeout`). -/
def shouldRetry (statusCode : Int) : Bool :=
  statusCode == 429 || (decide (500 ≤ statusCode) && decide (statusCode ≤ 504))

/-- The loop of `retryTransport.RoundTrip`, starting at a given attempt
index with a given number of retries remaining.  Mirrors the Go loop body:
clone the body (if present), perform the round trip (transport errors are
wrapped and returned at once), return any non-retryable response, and
otherwise, if retries remain, close the response body and wait — a wait
interrupted by cancellation returns the wrapped context error. -/
def rtGo (req : Request) (base : Nat → BaseResult) (attempt remaining : Nat) :
    RunResult :=
  match (if req.hasBody then req.getBodyErr attempt else none) with
  | some e => ⟨none, some (.wrapped "cloning request body" e), 0, []⟩
  | none =>
    match base attempt with
    | .err e => ⟨none, some (.wrapped "round trip" e), 1, []⟩
    | .resp s =>
      if !shouldRetry s then ⟨some ⟨attempt, s⟩, none, 1, []⟩
      else
        match remaining with
        | 0 => ⟨some ⟨attempt, s⟩, none, 1, []⟩
        | r + 1 =>
          if req.ctxDoneDuringWait attempt then
            ⟨none, some (.wrapped "retry wait" req.ctxErr), 1, [attempt]⟩
          else
            let rest := rtGo req base (attempt + 1) r
            ⟨rest.resp, rest.err, rest.calls + 1, attempt :: rest.closed⟩

/-- `retryTransport.RoundTrip` with `maxRetries` retries: the loop runs
attempts `0` through `maxRetries` inclusive. -/
def RoundTrip (req : Request) (base : Nat → BaseResult) (maxRetries : Nat) :
    RunResult :=
  rtGo req base 0 maxRetries

/-- Outcome of a round trip as seen by the logging decorator. -/
inductive HTTPOutcome where
  | ok (resp : Response)
  | err (e : GoError)
deriving DecidableEq

/-- `loggingTransport.RoundTrip`: the `slog.Debug` calls are pure
observability and have no bearing on the outcome; the returned value is the
base response on success and the wrapped base error on failure. -/
def loggingRoundTrip (baseResult : HTTPOutcome) : HTTPOutcome :=
  match baseResult with
  | .ok resp => .ok resp
  | .err e => .err (.wrapped "logging round trip" e)

/-- A request with no body and a context that never fires. -/
def plainRequest : Request :=
  ⟨false, fun _ => none, fun _ => false, .simple "context canceled"⟩

/-- A request whose context cancellation fires during every backoff wait. -/
def cancelingRequest : Request :=
  ⟨false, fun _ => none, fun _ => true, .simple "context canceled"⟩

/-- A transport that returns 500 once and then fails at the transport
level. -/
def errorProneBase : Nat → BaseResult :=
  fun i => if i = 0 then .resp 500 else .err (.simple "connection refused")

/-- A transport that always returns the given status. -/
def alwaysStatus (code : Int) : Nat → BaseResult :=
  fun _ => .resp code

/-! ## Basic facts about `replaceAll` -/

lemma isPrefixOf_nil_right {pat : List Char} (h : pat.isPrefixOf ([] : List Char)) :
    pat = [] := by
  cases pat with
  | nil => rfl
  | cons a as => simp [List.isPrefixOf] at h

lemma replaceAllGo_nil (pat rep : List Char) (f : Nat) :
    replaceAllGo pat rep f [] = [] := by
  cases f with
  | zero => rfl
  | succ f =>
    simp only [replaceAllGo]
    rw [if_neg]
    rintro ⟨hne, hpre⟩
    exact hne (isPrefixOf_nil_right hpre)

lemma length_pos_of_isPrefixOf {pat s : List Char} (hne : pat ≠ [])
    (h : pat.isPrefixOf s) : 0 < s.length := by
  cases s with
  | nil => exact absurd (isPrefixOf_nil_right h) hne
  | cons c t => simp

lemma length_le_of_isPrefixOf {pat s : List Char} (h : pat.isPrefixOf s) :
    pat.length ≤ s.length :=
  (List.isPrefixOf_iff_prefix.mp h).length_le

lemma replaceAllGo_fuel (pat rep : List Char) :
    ∀ (f₁ : Nat) (s : List Char) (f₂ : Nat), s.length ≤ f₁ → s.length ≤ f₂ →
      replaceAllGo pat rep f₁ s = replaceAllGo pat rep f₂ s := by
  intro f₁
  induction f₁ with
  | zero =>
    intro s f₂ h₁ _
    have hs : s = [] := List.eq_nil_of_length_eq_zero (Nat.le_zero.mp h₁)
    subst hs
    simp [replaceAllGo_nil]
  | succ f ih =>
    intro s f₂ h₁ h₂
    cases s with
    | nil => simp [replaceAllGo_nil]
    | cons c t =>
      cases f₂ with
      | zero => simp at h₂
      | succ f₂' =>
        simp only [replaceAllGo]
        by_cases h : pat ≠ [] ∧ pat.isPrefixOf (c :: t)
        · rw [if_pos h, if_pos h]
          have hp1 : 1 ≤ pat.length := by
            cases pat with
            | nil => exact absurd rfl h.1
            | cons a as => simp
          have hlen : ((c :: t).drop pat.length).length ≤ f := by
            simp only [List.length_drop, List.length_cons] at *
            omega
          have hlen₂ : ((c :: t).drop pat.length).length ≤ f₂' := by
            simp only [List.length_drop, List.length_cons] at *
            omega
          rw [ih _ _ hlen hlen₂]
        · rw [if_neg h, if_neg h]
          simp only [List.length_cons] at h₁ h₂
          rw [ih t f₂' (by omega) (by omega)]

lemma replaceAll_eq_go (pat rep s : List Char) (f : Nat) (h : s.length ≤ f) :
    replaceAll pat rep s = replaceAllGo pat rep f s :=
  replaceAllGo_fuel pat rep s.length s f le_rfl h

lemma replaceAll_nil (pat rep : List Char) : replaceAll pat rep [] = [] := rfl

/-- Unfolding rule at a match: if the (nonempty) pattern starts the string,
replace it and continue after it. -/
lemma replaceAll_pos {pat s : List Char} (rep : List Char) (hne : pat ≠ [])
    (hpre : pat.isPrefixOf s) :
    replaceAll pat rep s = rep ++ replaceAll pat rep (s.drop pat.length) := by
  have hp1 : 1 ≤ pat.length := by
    cases pat with
    | nil => exact absurd rfl hne
    | cons a as => simp
  have hs : 0 < s.length := length_pos_of_isPrefixOf hne hpre
  obtain ⟨n, hn⟩ : ∃ n, s.length = n + 1 := ⟨s.length - 1, by omega⟩
  have : replaceAll pat rep s = replaceAllGo pat rep (n + 1) s :=
    replaceAll_eq_go pat rep s (n + 1) (by omega)
  rw [this]
  simp only [replaceAllGo]
  rw [if_pos ⟨hne, hpre⟩]
  congr 1
  have hd : (s.drop pat.length).length ≤ n := by
    have := length_le_of_isPrefixOf hpre
    simp only [List.length_drop]
    omega
  exact (replaceAll_eq_go pat rep _ n hd).symm

/-- Unfolding rule at a mismatch: if the pattern does not start the string,
keep the head character and continue. -/
lemma replaceAll_neg {pat : List Char} (rep : List Char) {c : Char}
    {t : List Char} (h : ¬ pat.isPrefixOf (c :: t)) :
    replaceAll pat rep (c :: t) = c :: replaceAll pat rep t := by
  have : replaceAll pat rep (c :: t) = replaceAllGo pat rep (t.length + 1) (c :: t) := by
    apply replaceAll_eq_go
    simp
  rw [this]
  simp only [replaceAllGo]
  rw [if_neg (by rintro ⟨_, hp⟩; exact h hp)]
  rfl

/-- Replacement of a single-character pattern is a character-wise flat map. -/
lemma replaceAll_single (x : Char) (rep : List Char) (s : List Char) :
    replaceAll [x] rep s = s.flatMap (fun c => if c = x then rep else [c]) := by
  induction s with
  | nil => simp [replaceAll_nil]
  | cons c t ih =>
    by_cases hc : c = x
    · subst hc
      have hpre : [c].isPrefixOf (c :: t) := by simp [List.isPrefixOf]
      rw [replaceAll_pos rep (by simp) hpre]
      simp [ih]
    · have hpre : ¬ [x].isPrefixOf (c :: t) := by
        simp [List.isPrefixOf]
        intro h
        exact absurd h.symm hc
      rw [replaceAll_neg rep hpre]
      simp [ih, hc]

/-- Characters of the output of `replaceAll` come from the subject or from
the replacement. -/
lemma mem_replaceAll {a : Char} (pat rep : List Char) :
    ∀ (f : Nat) (s : List Char), a ∈ replaceAllGo pat rep f s → a ∈ s ∨ a ∈ rep := by
  intro f
  induction f with
  | zero => intro s h; exact Or.inl h
  | succ f ih =>
    intro s h
    simp only [replaceAllGo] at h
    by_cases hc : pat ≠ [] ∧ pat.isPrefixOf s
    · rw [if_pos hc] at h
      rcases List.mem_append.mp h with h | h
      · exact Or.inr h
      · rcases ih _ h with h | h
        · exact Or.inl (List.mem_of_mem_drop h)
        · exact Or.inr h
    · rw [if_neg hc] at h
      cases s with
      | nil => simp at h
      | cons c t =>
        simp only at h
        rcases List.mem_cons.mp h with h | h
        · exact Or.inl (h ▸ List.mem_cons_self c t)
        · rcases ih _ h with h | h
          · exact Or.inl (List.mem_cons_of_mem c h)
          · exact Or.inr h

lemma mem_replaceAll' {a : Char} {pat rep s : List Char}
    (h : a ∈ replaceAll pat rep s) : a ∈ s ∨ a ∈ rep :=
  mem_replaceAll pat rep s.length s h

/-- Replacing the single character `x` by a replacement avoiding `x`
eliminates every `x`. -/
lemma not_mem_replaceAll_single {x : Char} {rep : List Char} (hx : x ∉ rep)
    (s : List Char) : x ∉ replaceAll [x] rep s := by
  rw [replaceAll_single]
  intro h
  rcases List.mem_flatMap.mp h with ⟨c, _, hc⟩
  by_cases hcx : c = x
  · rw [if_pos hcx] at hc
    exact hx hc
  · rw [if_neg hcx] at hc
    simp at hc
    exact hcx hc.symm

/-! ## Replacement over chunked streams

`Encode` produces a concatenation of per-character chunks.  The following
lemma describes how `replaceAll` with a two-character pattern acts on such a
stream: chunks equal to the pattern are replaced, all other chunks pass
through, provided no occurrence of the pattern straddles a chunk boundary. -/


lemma flatMap_congr {α β : Type} {f g : α → List β} :
    ∀ {l : List α}, (∀ a ∈ l, f a = g a) → l.flatMap f = l.flatMap g := by
  intro l
  induction l with
  | nil => intro _; rfl
  | cons a t ih =>
    intro h
    rw [List.flatMap_cons, List.flatMap_cons, h a (List.mem_cons_self a t),
      ih fun x hx => h x (List.mem_cons_of_mem a hx)]

lemma flatMap_id' : ∀ l : List Char, l.flatMap (fun c => [c]) = l := by
  intro l
  induction l with
  | nil => rfl
  | cons a t ih => rw [List.flatMap_cons, ih]; rfl

lemma replaceAll_chunks (a b r : Char) (g g' : Char → List Char)
    (hg : ∀ c, (g c = [a, b] ∧ g' c = [r]) ∨ (g' c = g c ∧ Chunk2OK a b (g c))) :
    ∀ s : List Char,
      s.Chain' (fun c d => g c ≠ [a, b] → (g c).getLast? = some a →
        (g d).head? ≠ some b) →
      replaceAll [a, b] [r] (s.flatMap g) = s.flatMap g' := by
  have gne : ∀ c, g c ≠ [] := by
    intro c
    rcases hg c with ⟨h1, _⟩ | ⟨_, h2⟩
    · rw [h1]; simp
    · rcases h2 with ⟨x, hx⟩ | ⟨x, y, hxy, _, _⟩
      · rw [hx]; simp
      · rw [hxy]; simp
  intro s
  induction s with
  | nil => intro _; simp [replaceAll_nil]
  | cons c s' ih =>
    intro hch
    have hch' : s'.Chain' _ := hch.tail
    rw [List.flatMap_cons, List.flatMap_cons]
    rcases hg c with ⟨hgc, hg'c⟩ | ⟨hg'c, hok⟩
    · -- chunk equal to the pattern: replaced
      rw [hgc, hg'c]
      have hpre : ([a, b]).isPrefixOf ([a, b] ++ s'.flatMap g) := by
        simp [List.isPrefixOf]
      rw [replaceAll_pos ([r]) (by simp) hpre]
      have hdrop : (([a, b] ++ s'.flatMap g).drop ([a, b]).length) = s'.flatMap g := by
        simp
      rw [hdrop, ih hch']
    · rw [hg'c]
      rcases hok with ⟨x, hx⟩ | ⟨x, y, hxy, hpat, hya⟩
      · -- single-character chunk
        rw [hx]
        have hnpre : ¬ ([a, b]).isPrefixOf (x :: s'.flatMap g) := by
          intro hp
          cases s' with
          | nil =>
            simp [List.isPrefixOf, List.flatMap_nil] at hp
          | cons d s'' =>
            rcases hu : g d with _ | ⟨u, us⟩
            · exact absurd hu (gne d)
            · rw [List.flatMap_cons, hu] at hp
              simp only [List.cons_append, List.isPrefixOf, Bool.and_eq_true,
                beq_iff_eq] at hp
              have hrel := (List.chain'_cons.mp hch).1
              refine hrel ?_ ?_ ?_
              · rw [hx]
                intro hcon
                exact absurd (congrArg List.length hcon) (by simp)
              · rw [hx, hp.1]
                rfl
              · rw [hu]
                simp [hp.2.1]
        rw [show ([x] ++ s'.flatMap g) = x :: s'.flatMap g from rfl,
          show ([x] ++ s'.flatMap g') = x :: s'.flatMap g' from rfl,
          replaceAll_neg ([r]) hnpre, ih hch']
      · -- two-character chunk distinct from the pattern
        rw [hxy]
        have h1 : ¬ ([a, b]).isPrefixOf (x :: y :: s'.flatMap g) := by
          simp only [List.isPrefixOf, Bool.and_eq_true, beq_iff_eq]
          intro h
          exact hpat ⟨h.1.symm, h.2.1.symm⟩
        have h2 : ¬ ([a, b]).isPrefixOf (y :: s'.flatMap g) := by
          simp only [List.isPrefixOf, Bool.and_eq_true, beq_iff_eq]
          intro h
          exact absurd h.1.symm hya
        rw [show ([x, y] ++ s'.flatMap g) = x :: y :: s'.flatMap g from rfl,
          show ([x, y] ++ s'.flatMap g') = x :: y :: s'.flatMap g' from rfl,
          replaceAll_neg ([r]) h1, replaceAll_neg ([r]) h2, ih hch']

/-! ## `Encode` as a character-wise map -/


/-- Complete case description of `encChar`, used to reason about chunk
shapes without re-doing the 14-way case split every time. -/
lemma encChar_info (c : Char) :
    (encChar c = [c] ∧ c ≠ '_' ∧ c ≠ '-' ∧ c ≠ ' ' ∧ (∀ y, (y, c) ∉ tildeTable) ∧ c ≠ '"') ∨
    (c = ' ' ∧ encChar c = ['_']) ∨
    (c = '_' ∧ encChar c = ['_', '_']) ∨
    (c = '-' ∧ encChar c = ['-', '-']) ∨
    (c = '"' ∧ encChar c = ['\'', '\'']) ∨
    (∃ y, encChar c = ['~', y] ∧ y ∈ tildeLetters ∧ (y, c) ∈ tildeTable) := by
  by_cases h1 : c = '_'
  · subst h1; right; right; left; exact ⟨rfl, by decide⟩
  by_cases h2 : c = '-'
  · subst h2; right; right; right; left; exact ⟨rfl, by decide⟩
  by_cases h3 : c = ' '
  · subst h3; right; left; exact ⟨rfl, by decide⟩
  by_cases h4 : c = '?'
  · subst h4
    right; right; right; right; right
    exact ⟨'q', by decide, by decide, by decide⟩
  by_cases h5 : c = '%'
  · subst h5
    right; right; right; right; right
    exact ⟨'p', by decide, by decide, by decide⟩
  by_cases h6 : c = '#'
  · subst h6
    right; right; right; right; right
    exact ⟨'h', by decide, by decide, by decide⟩
  by_cases h7 : c = '"'
  · subst h7; right; right; right; right; left; exact ⟨rfl, by decide⟩
  by_cases h8 : c = '/'
  · subst h8
    right; right; right; right; right
    exact ⟨'s', by decide, by decide, by decide⟩
  by_cases h9 : c = '\\'
  · subst h9
    right; right; right; right; right
    exact ⟨'b', by decide, by decide, by decide⟩
  by_cases h10 : c = '\n'
  · subst h10
    right; right; right; right; right
    exact ⟨'n', by decide, by decide, by decide⟩
  by_cases h11 : c = '&'
  · subst h11
    right; right; right; right; right
    exact ⟨'a', by decide, by decide, by decide⟩
  by_cases h12 : c = '<'
  · subst h12
    right; right; right; right; right
    exact ⟨'l', by decide, by decide, by decide⟩
  by_cases h13 : c = '>'
  · subst h13
    right; right; right; right; right
    exact ⟨'g', by decide, by decide, by decide⟩
  · left
    refine ⟨by simp [encChar, h1, h2, h3, h4, h5, h6, h7, h8, h9, h10, h11, h12, h13],
      h1, h2, h3, ?_, h7⟩
    intro y hy
    simp only [tildeTable, List.mem_cons, List.not_mem_nil, or_false,
      Prod.mk.injEq] at hy
    rcases hy with ⟨-, h⟩ | ⟨-, h⟩ | ⟨-, h⟩ | ⟨-, h⟩ | ⟨-, h⟩ | ⟨-, h⟩ | ⟨-, h⟩ | ⟨-, h⟩ | ⟨-, h⟩
    · exact h4 h
    · exact h5 h
    · exact h6 h
    · exact h11 h
    · exact h12 h
    · exact h13 h
    · exact h9 h
    · exact h8 h
    · exact h10 h

/-- `Encode` is the concatenation of the per-character images. -/
lemma encode_eq_flatMap (s : List Char) : Encode s = s.flatMap encChar := by
  simp only [Encode, replaceAll_single, List.flatMap_assoc]
  refine flatMap_congr fun c _ => ?_
  by_cases h1 : c = '_'
  · subst h1; decide
  by_cases h2 : c = '-'
  · subst h2; decide
  by_cases h3 : c = ' '
  · subst h3; decide
  by_cases h4 : c = '?'
  · subst h4; decide
  by_cases h5 : c = '%'
  · subst h5; decide
  by_cases h6 : c = '#'
  · subst h6; decide
  by_cases h7 : c = '"'
  · subst h7; decide
  by_cases h8 : c = '/'
  · subst h8; decide
  by_cases h9 : c = '\\'
  · subst h9; decide
  by_cases h10 : c = '\n'
  · subst h10; decide
  by_cases h11 : c = '&'
  · subst h11; decide
  by_cases h12 : c = '<'
  · subst h12; decide
  by_cases h13 : c = '>'
  · subst h13; decide
  simp [encChar, h1, h2, h3, h4, h5, h6, h7, h8, h9, h10, h11, h12, h13]

/-! ## The decode phases on encoded streams -/


lemma chunkAt_nil (c : Char) : chunkAt [] c = encChar c := by
  simp [chunkAt]

lemma tildeTable_functional :
    ∀ p ∈ tildeTable, ∀ q ∈ tildeTable, p.1 = q.1 → p.2 = q.2 := by decide

lemma tildeLetters_ne_tilde : ∀ y ∈ tildeLetters, y ≠ '~' := by decide

lemma tildeLetters_ne_quote : ∀ y ∈ tildeLetters, y ≠ '\'' := by decide

/-- `encChar` assigns each tilde sequence to exactly one character. -/
lemma encChar_tilde_inj {c sp x : Char}
    (hsptab : (x, sp) ∈ tildeTable) (hc : encChar c = ['~', x]) : c = sp := by
  rcases encChar_info c with ⟨h, -⟩ | ⟨-, h⟩ | ⟨-, h⟩ | ⟨-, h⟩ | ⟨-, h⟩ | ⟨y, h, -, htab⟩
  · rw [hc] at h
    exact absurd (congrArg List.length h) (by simp)
  · rw [hc] at h
    exact absurd (congrArg List.length h) (by simp)
  · rw [hc] at h
    injection h with h1 _
    exact absurd h1 (by decide)
  · rw [hc] at h
    injection h with h1 _
    exact absurd h1 (by decide)
  · rw [hc] at h
    injection h with h1 _
    exact absurd h1 (by decide)
  · rw [hc] at h
    injection h with _ h2
    injection h2 with h2 _
    subst h2
    exact tildeTable_functional _ htab _ hsptab rfl

lemma chunkAt_last_tilde {R : List Char} {c : Char}
    (h : (chunkAt R c).getLast? = some '~') : c = '~' := by
  unfold chunkAt at h
  by_cases hm : c ∈ R
  · rw [if_pos hm] at h
    simpa using h
  · rw [if_neg hm] at h
    rcases encChar_info c with ⟨he, -⟩ | ⟨-, he⟩ | ⟨-, he⟩ | ⟨-, he⟩ | ⟨-, he⟩ | ⟨y, he, hy, -⟩
    · rw [he] at h
      simpa using h
    · rw [he] at h
      exact absurd h (by decide)
    · rw [he] at h
      exact absurd h (by decide)
    · rw [he] at h
      exact absurd h (by decide)
    · rw [he] at h
      exact absurd h (by decide)
    · rw [he] at h
      simp at h
      subst h
      exact absurd hy (by decide)

lemma chunkAt_head_letter {R : List Char} {d y : Char} (hy : y ∈ tildeLetters)
    (h : (chunkAt R d).head? = some y) : d = y := by
  unfold chunkAt at h
  by_cases hm : d ∈ R
  · rw [if_pos hm] at h
    simpa using h
  · rw [if_neg hm] at h
    rcases encChar_info d with ⟨he, -⟩ | ⟨-, he⟩ | ⟨-, he⟩ | ⟨-, he⟩ | ⟨-, he⟩ | ⟨z, he, hz, -⟩
    · rw [he] at h
      simpa using h
    · rw [he] at h
      simp at h
      subst h
      exact absurd hy (by decide)
    · rw [he] at h
      simp at h
      subst h
      exact absurd hy (by decide)
    · rw [he] at h
      simp at h
      subst h
      exact absurd hy (by decide)
    · rw [he] at h
      simp at h
      subst h
      exact absurd hy (by decide)
    · rw [he] at h
      simp at h
      subst h
      exact absurd hy (by decide)

/-- One tilde-escape restoration step, on the chunked stream. -/
lemma tilde_step {s : List Char} (hch : s.Chain' Safe)
    (x sp : Char) (R : List Char)
    (hsp : encChar sp = ['~', x]) (hspR : sp ∉ R)
    (hx : x ∈ tildeLetters) (htab : (x, sp) ∈ tildeTable) :
    replaceAll ['~', x] [sp] (s.flatMap (chunkAt R)) = s.flatMap (chunkAt (sp :: R)) := by
  apply replaceAll_chunks
  · intro c
    by_cases hcR : c ∈ R
    · right
      refine ⟨by simp [chunkAt, hcR, List.mem_cons.mpr (Or.inr hcR)], ?_⟩
      exact Or.inl ⟨c, by simp [chunkAt, hcR]⟩
    · by_cases hcsp : c = sp
      · subst hcsp
        left
        refine ⟨by simp [chunkAt, hspR, hsp], ?_⟩
        simp [chunkAt]
      · right
        have hmem2 : c ∉ (sp :: R) := by
          simp [List.mem_cons, hcsp, hcR]
        refine ⟨by simp [chunkAt, hcR, hmem2], ?_⟩
        rw [show chunkAt R c = encChar c from by simp [chunkAt, hcR]]
        rcases encChar_info c with ⟨he, -⟩ | ⟨-, he⟩ | ⟨-, he⟩ | ⟨-, he⟩ | ⟨-, he⟩ | ⟨y, he, hy, -⟩
        · exact Or.inl ⟨c, he⟩
        · exact Or.inl ⟨'_', he⟩
        · exact Or.inr ⟨'_', '_', he, fun h => absurd h.1 (by decide), by decide⟩
        · exact Or.inr ⟨'-', '-', he, fun h => absurd h.1 (by decide), by decide⟩
        · exact Or.inr ⟨'\'', '\'', he, fun h => absurd h.1 (by decide), by decide⟩
        · refine Or.inr ⟨'~', y, he, ?_, tildeLetters_ne_tilde y hy⟩
          rintro ⟨-, hyx⟩
          subst hyx
          exact hcsp (encChar_tilde_inj htab he)
  · refine hch.imp ?_
    intro c d hsafe hne hlast hhead
    have hc : c = '~' := chunkAt_last_tilde hlast
    have hd : d = x := chunkAt_head_letter hx hhead
    exact hsafe.1 ⟨hc, hd ▸ hx⟩

/-- The double-apostrophe restoration step, on the chunked stream. -/
lemma quote_step {s : List Char} (hch : s.Chain' Safe)
    (R : List Char) (hR : '"' ∉ R) :
    replaceAll ['\'', '\''] ['"'] (s.flatMap (chunkAt R)) =
      s.flatMap (chunkAt ('"' :: R)) := by
  apply replaceAll_chunks
  · intro c
    by_cases hcR : c ∈ R
    · right
      refine ⟨by simp [chunkAt, hcR, List.mem_cons.mpr (Or.inr hcR)], ?_⟩
      exact Or.inl ⟨c, by simp [chunkAt, hcR]⟩
    · by_cases hcq : c = '"'
      · subst hcq
        left
        refine ⟨by simp [chunkAt, hR]; decide, by simp [chunkAt]⟩
      · right
        have hmem2 : c ∉ ('"' :: R) := by
          simp [List.mem_cons, hcq, hcR]
        refine ⟨by simp [chunkAt, hcR, hmem2], ?_⟩
        rw [show chunkAt R c = encChar c from by simp [chunkAt, hcR]]
        rcases encChar_info c with ⟨he, -⟩ | ⟨-, he⟩ | ⟨-, he⟩ | ⟨-, he⟩ | ⟨hq, -⟩ | ⟨y, he, hy, -⟩
        · exact Or.inl ⟨c, he⟩
        · exact Or.inl ⟨'_', he⟩
        · exact Or.inr ⟨'_', '_', he, fun h => absurd h.1 (by decide), by decide⟩
        · exact Or.inr ⟨'-', '-', he, fun h => absurd h.1 (by decide), by decide⟩
        · exact absurd hq hcq
        · exact Or.inr ⟨'~', y, he, fun h => absurd h.1 (by decide),
            tildeLetters_ne_quote y hy⟩
  · refine hch.imp ?_
    intro c d hsafe hne hlast hhead
    have hc : c = '\'' := by
      unfold chunkAt at hne hlast
      by_cases hm : c ∈ R
      · rw [if_pos hm] at hlast
        simpa using hlast
      · rw [if_neg hm] at hne hlast
        rcases encChar_info c with ⟨he, -⟩ | ⟨-, he⟩ | ⟨-, he⟩ | ⟨-, he⟩ | ⟨-, he⟩ | ⟨y, he, hy, -⟩
        · rw [he] at hlast
          simpa using hlast
        · rw [he] at hlast
          exact absurd hlast (by decide)
        · rw [he] at hlast
          exact absurd hlast (by decide)
        · rw [he] at hlast
          exact absurd hlast (by decide)
        · exact absurd he hne
        · rw [he] at hlast
          simp at hlast
          subst hlast
          exact absurd hy (by decide)
    have hd : d = '\'' ∨ d = '"' := by
      unfold chunkAt at hhead
      by_cases hm : d ∈ R
      · rw [if_pos hm] at hhead
        simp at hhead
        exact Or.inl hhead
      · rw [if_neg hm] at hhead
        rcases encChar_info d with ⟨he, -⟩ | ⟨-, he⟩ | ⟨-, he⟩ | ⟨-, he⟩ | ⟨hq, -⟩ | ⟨y, he, hy, -⟩
        · rw [he] at hhead
          simp at hhead
          exact Or.inl hhead
        · rw [he] at hhead
          exact absurd hhead (by decide)
        · rw [he] at hhead
          exact absurd hhead (by decide)
        · rw [he] at hhead
          exact absurd hhead (by decide)
        · exact Or.inr hq
        · rw [he] at hhead
          simp at hhead
    exact hsafe.2.1 ⟨hc, hd⟩

/-! ## The underscore and dash phases -/


lemma chunkAt_full_eq_e12 :
    ∀ c, chunkAt ['"', '\n', '/', '\\', '>', '<', '&', '#', '%', '?'] c = e12 c := by
  intro c
  by_cases hm : c ∈ ['"', '\n', '/', '\\', '>', '<', '&', '#', '%', '?']
  · simp only [List.mem_cons, List.not_mem_nil, or_false] at hm
    rcases hm with rfl | rfl | rfl | rfl | rfl | rfl | rfl | rfl | rfl | rfl <;> decide
  · rw [show chunkAt ['"', '\n', '/', '\\', '>', '<', '&', '#', '%', '?'] c = encChar c
      from by simp [chunkAt, hm]]
    simp only [List.mem_cons, List.not_mem_nil, or_false, not_or] at hm
    obtain ⟨m1, m2, m3, m4, m5, m6, m7, m8, m9, m10⟩ := hm
    by_cases h1 : c = '_'
    · subst h1; decide
    by_cases h2 : c = '-'
    · subst h2; decide
    by_cases h3 : c = ' '
    · subst h3; decide
    simp [encChar, e12, h1, h2, h3, m1, m2, m3, m4, m5, m6, m7, m8, m9, m10]

/-- The `__ → \x00` placeholder step, on the chunked stream. -/
lemma underscore_step {s : List Char} (hch : s.Chain' Safe) :
    replaceAll ['_', '_'] ['\x00'] (s.flatMap e12) = s.flatMap d11 := by
  apply replaceAll_chunks
  · intro c
    by_cases h1 : c = '_'
    · subst h1; exact Or.inl (by decide)
    by_cases h2 : c = '-'
    · subst h2; exact Or.inr ⟨by decide, Or.inr ⟨'-', '-', by decide, by decide, by decide⟩⟩
    by_cases h3 : c = ' '
    · subst h3; exact Or.inr ⟨by decide, Or.inl ⟨'_', by decide⟩⟩
    · exact Or.inr ⟨by simp [e12, d11, h1, h2, h3],
        Or.inl ⟨c, by simp [e12, h1, h2, h3]⟩⟩
  · refine hch.imp ?_
    intro c d hsafe hne hlast hhead
    have hc : c = ' ' := by
      by_cases h1 : c = '_'
      · subst h1; exact absurd (by decide : e12 '_' = ['_', '_']) hne
      by_cases h2 : c = '-'
      · subst h2; exact absurd hlast (by decide)
      by_cases h3 : c = ' '
      · exact h3
      · rw [show e12 c = [c] from by simp [e12, h1, h2, h3]] at hlast
        simp at hlast
        exact absurd hlast h1
    have hd : d = ' ' ∨ d = '_' := by
      by_cases k1 : d = '_'
      · exact Or.inr k1
      by_cases k2 : d = '-'
      · subst k2; exact absurd hhead (by decide)
      by_cases k3 : d = ' '
      · exact Or.inl k3
      · rw [show e12 d = [d] from by simp [e12, k1, k2, k3]] at hhead
        simp at hhead
        exact absurd hhead k1
    exact hsafe.2.2 ⟨hc, hd⟩

lemma space_step (s : List Char) :
    replaceAll ['_'] [' '] (s.flatMap d11) = s.flatMap d12 := by
  rw [replaceAll_single, List.flatMap_assoc]
  refine flatMap_congr fun c _ => ?_
  by_cases h1 : c = '_'
  · subst h1; decide
  by_cases h2 : c = '-'
  · subst h2; decide
  by_cases h3 : c = ' '
  · subst h3; decide
  simp [d11, d12, h1, h2, h3]

lemma placeholder0_step {s : List Char}
    (hmem : ∀ c ∈ s, c ≠ '\x00' ∧ c ≠ '\x01') :
    replaceAll ['\x00'] ['_'] (s.flatMap d12) = s.flatMap d13 := by
  rw [replaceAll_single, List.flatMap_assoc]
  refine flatMap_congr fun c hc => ?_
  by_cases h1 : c = '_'
  · subst h1; decide
  by_cases h2 : c = '-'
  · subst h2; decide
  by_cases h3 : c = ' '
  · subst h3; decide
  simp [d12, d13, h1, h2, h3, (hmem c hc).1]

/-- The `-- → \x01` placeholder step, on the chunked stream. -/
lemma dash_step {s : List Char} (hch : s.Chain' Safe) :
    replaceAll ['-', '-'] ['\x01'] (s.flatMap d13) = s.flatMap d14 := by
  apply replaceAll_chunks
  · intro c
    by_cases h1 : c = '_'
    · subst h1; exact Or.inr ⟨by decide, Or.inl ⟨'_', by decide⟩⟩
    by_cases h2 : c = '-'
    · subst h2; exact Or.inl (by decide)
    by_cases h3 : c = ' '
    · subst h3; exact Or.inr ⟨by decide, Or.inl ⟨' ', by decide⟩⟩
    · exact Or.inr ⟨by simp [d13, d14, h1, h2, h3],
        Or.inl ⟨c, by simp [d13, h1, h2, h3]⟩⟩
  · refine hch.imp ?_
    intro c d hsafe hne hlast
    exfalso
    by_cases h1 : c = '_'
    · subst h1; exact absurd hlast (by decide)
    by_cases h2 : c = '-'
    · subst h2; exact hne (by decide)
    by_cases h3 : c = ' '
    · subst h3; exact absurd hlast (by decide)
    · rw [show d13 c = [c] from by simp [d13, h1, h2, h3]] at hlast
      simp at hlast
      exact absurd hlast h2

lemma placeholder1_step {s : List Char}
    (hmem : ∀ c ∈ s, c ≠ '\x00' ∧ c ≠ '\x01') :
    replaceAll ['\x01'] ['-'] (s.flatMap d14) = s := by
  rw [replaceAll_single, List.flatMap_assoc]
  rw [show s = s.flatMap (fun c => [c]) from (flatMap_id' s).symm]
  rw [List.flatMap_assoc]
  refine flatMap_congr fun c hc => ?_
  by_cases h1 : c = '_'
  · subst h1; decide
  by_cases h2 : c = '-'
  · subst h2; decide
  by_cases h3 : c = ' '
  · subst h3; decide
  simp [d14, h1, h2, h3, (hmem c hc).2]

/-- The round trip, assembled from the fifteen decode steps. -/
lemma roundtrip_aux {s : List Char} (hmem : ∀ c ∈ s, c ≠ '\x00' ∧ c ≠ '\x01')
    (hch : s.Chain' Safe) : Decode (Encode s) = s := by
  rw [encode_eq_flatMap,
    show s.flatMap encChar = s.flatMap (chunkAt []) from
      flatMap_congr fun c _ => (chunkAt_nil c).symm]
  simp only [Decode]
  rw [tilde_step hch 'q' '?' [] (by decide) (by decide) (by decide) (by decide)]
  rw [tilde_step hch 'p' '%' ['?'] (by decide) (by decide) (by decide) (by decide)]
  rw [tilde_step hch 'h' '#' ['%', '?'] (by decide) (by decide) (by decide) (by decide)]
  rw [tilde_step hch 'a' '&' ['#', '%', '?'] (by decide) (by decide) (by decide)
    (by decide)]
  rw [tilde_step hch 'l' '<' ['&', '#', '%', '?'] (by decide) (by decide) (by decide)
    (by decide)]
  rw [tilde_step hch 'g' '>' ['<', '&', '#', '%', '?'] (by decide) (by decide)
    (by decide) (by decide)]
  rw [tilde_step hch 'b' '\\' ['>', '<', '&', '#', '%', '?'] (by decide) (by decide)
    (by decide) (by decide)]
  rw [tilde_step hch 's' '/' ['\\', '>', '<', '&', '#', '%', '?'] (by decide)
    (by decide) (by decide) (by decide)]
  rw [tilde_step hch 'n' '\n' ['/', '\\', '>', '<', '&', '#', '%', '?'] (by decide)
    (by decide) (by decide) (by decide)]
  rw [quote_step hch ['\n', '/', '\\', '>', '<', '&', '#', '%', '?'] (by decide)]
  rw [show s.flatMap (chunkAt ['"', '\n', '/', '\\', '>', '<', '&', '#', '%', '?']) =
      s.flatMap e12 from flatMap_congr fun c _ => chunkAt_full_eq_e12 c]
  rw [underscore_step hch, space_step, placeholder0_step hmem, dash_step hch,
    placeholder1_step hmem]


/-! ## Transport lemmas -/

/-- Behaviour of the loop against a server that always answers a fixed
retryable status: every attempt is made, every non-final body is closed,
and the final response is returned without an error. -/
lemma rtGo_const_retryable (req : Request) (base : Nat → BaseResult) (code : Int)
    (hclone : ∀ i, (if req.hasBody then req.getBodyErr i else none) = none)
    (hcancel : ∀ i, req.ctxDoneDuringWait i = false)
    (hbase : ∀ i, base i = .resp code) (hcode : shouldRetry code = true) :
    ∀ r a, rtGo req base a r =
      ⟨some ⟨a + r, code⟩, none, r + 1, List.range' a r⟩ := by
  intro r
  induction r with
  | zero =>
    intro a
    simp [rtGo, hclone, hbase, hcode]
  | succ r ih =>
    intro a
    simp only [rtGo, hclone, hbase, hcode, hcancel, Bool.not_true, Bool.false_eq_true,
      if_false, ih (a + 1)]
    rw [show a + 1 + r = a + (r + 1) from by omega, List.range'_succ]

/-- C7 (amended): on every exit path, the bodies of the responses the
transport abandons are exactly the ones it closes, in attempt order: a
retried attempt's body is closed before the next attempt begins, a
cancelled wait closes the pending attempt's body before returning, and
clone/transport errors leave only previously retried bodies closed — but
the response that `RoundTrip` returns has its body left open for the
caller, on the success, terminal-failure and retries-exhausted paths
alike. -/
theorem C7_theorem (req : Request) (base : Nat → BaseResult) :
    ∀ (remaining attempt : Nat) (resp : Option Response) (err : Option GoError)
      (calls : Nat) (closed : List Nat),
      rtGo req base attempt remaining = ⟨resp, err, calls, closed⟩ →
      (∀ p, resp = some p → attempt ≤ p.attempt ∧ calls = p.attempt - attempt + 1 ∧
        closed = List.range' attempt (p.attempt - attempt) ∧ p.attempt ∉ closed) ∧
      (∀ e, err = some (.wrapped "retry wait" e) → closed = List.range' attempt calls) ∧
      (∀ e, err = some (.wrapped "cloning request body" e) →
        closed = List.range' attempt calls) ∧
      (∀ e, err = some (.wrapped "round trip" e) → 1 ≤ calls ∧
        closed = List.range' attempt (calls - 1)) := by
  intro remaining
  induction remaining with
  | zero =>
    intro attempt resp err calls closed heq
    cases hcl : (if req.hasBody then req.getBodyErr attempt else none) with
    | some e0 =>
      have hval : rtGo req base attempt 0 =
          ⟨none, some (.wrapped "cloning request body" e0), 0, []⟩ := by
        simp [rtGo, hcl]
      obtain ⟨h1, h2, h3, h4⟩ :=
        RunResult.mk.injEq .. ▸ (hval.symm.trans heq)
      subst h1; subst h2; subst h3; subst h4
      refine ⟨?_, ?_, ?_, ?_⟩
      · intro p hp; simp at hp
      · intro e he
        injection he with h'
        injection h' with hm _
        exact absurd hm (by decide)
      · intro e he; rfl
      · intro e he
        injection he with h'
        injection h' with hm _
        exact absurd hm (by decide)
    | none =>
      cases hb : base attempt with
      | err e0 =>
        have hval : rtGo req base attempt 0 =
            ⟨none, some (.wrapped "round trip" e0), 1, []⟩ := by
          simp [rtGo, hcl, hb]
        obtain ⟨h1, h2, h3, h4⟩ :=
          RunResult.mk.injEq .. ▸ (hval.symm.trans heq)
        subst h1; subst h2; subst h3; subst h4
        refine ⟨?_, ?_, ?_, ?_⟩
        · intro p hp; simp at hp
        · intro e he
          injection he with h'
          injection h' with hm _
          exact absurd hm (by decide)
        · intro e he
          injection he with h'
          injection h' with hm _
          exact absurd hm (by decide)
        · intro e he; exact ⟨le_rfl, rfl⟩
      | resp s0 =>
        have hval : rtGo req base attempt 0 = ⟨some ⟨attempt, s0⟩, none, 1, []⟩ := by
          cases hr : shouldRetry s0 <;> simp [rtGo, hcl, hb, hr]
        obtain ⟨h1, h2, h3, h4⟩ :=
          RunResult.mk.injEq .. ▸ (hval.symm.trans heq)
        subst h1; subst h2; subst h3; subst h4
        refine ⟨?_, ?_, ?_, ?_⟩
        · intro p hp
          injection hp with hp
          subst hp
          exact ⟨le_rfl, by simp, by simp, by simp⟩
        · intro e he; simp at he
        · intro e he; simp at he
        · intro e he; simp at he
  | succ r ih =>
    intro attempt resp err calls closed heq
    cases hcl : (if req.hasBody then req.getBodyErr attempt else none) with
    | some e0 =>
      have hval : rtGo req base attempt (r + 1) =
          ⟨none, some (.wrapped "cloning request body" e0), 0, []⟩ := by
        simp [rtGo, hcl]
      obtain ⟨h1, h2, h3, h4⟩ :=
        RunResult.mk.injEq .. ▸ (hval.symm.trans heq)
      subst h1; subst h2; subst h3; subst h4
      refine ⟨?_, ?_, ?_, ?_⟩
      · intro p hp; simp at hp
      · intro e he
        injection he with h'
        injection h' with hm _
        exact absurd hm (by decide)
      · intro e he; rfl
      · intro e he
        injection he with h'
        injection h' with hm _
        exact absurd hm (by decide)
    | none =>
      cases hb : base attempt with
      | err e0 =>
        have hval : rtGo req base attempt (r + 1) =
            ⟨none, some (.wrapped "round trip" e0), 1, []⟩ := by
          simp [rtGo, hcl, hb]
        obtain ⟨h1, h2, h3, h4⟩ :=
          RunResult.mk.injEq .. ▸ (hval.symm.trans heq)
        subst h1; subst h2; subst h3; subst h4
        refine ⟨?_, ?_, ?_, ?_⟩
        · intro p hp; simp at hp
        · intro e he
          injection he with h'
          injection h' with hm _
          exact absurd hm (by decide)
        · intro e he
          injection he with h'
          injection h' with hm _
          exact absurd hm (by decide)
        · intro e he; exact ⟨le_rfl, rfl⟩
      | resp s0 =>
        cases hr : shouldRetry s0 with
        | false =>
          have hval : rtGo req base attempt (r + 1) =
              ⟨some ⟨attempt, s0⟩, none, 1, []⟩ := by
            simp [rtGo, hcl, hb, hr]
          obtain ⟨h1, h2, h3, h4⟩ :=
            RunResult.mk.injEq .. ▸ (hval.symm.trans heq)
          subst h1; subst h2; subst h3; subst h4
          refine ⟨?_, ?_, ?_, ?_⟩
          · intro p hp
            injection hp with hp
            subst hp
            exact ⟨le_rfl, by simp, by simp, by simp⟩
          · intro e he; simp at he
          · intro e he; simp at he
          · intro e he; simp at he
        | true =>
          cases hcx : req.ctxDoneDuringWait attempt with
          | true =>
            have hval : rtGo req base attempt (r + 1) =
                ⟨none, some (.wrapped "retry wait" req.ctxErr), 1, [attempt]⟩ := by
              simp [rtGo, hcl, hb, hr, hcx]
            obtain ⟨h1, h2, h3, h4⟩ :=
              RunResult.mk.injEq .. ▸ (hval.symm.trans heq)
            subst h1; subst h2; subst h3; subst h4
            refine ⟨?_, ?_, ?_, ?_⟩
            · intro p hp; simp at hp
            · intro e he
              simp [List.range'_succ]
            · intro e he
              injection he with h'
              injection h' with hm _
              exact absurd hm (by decide)
            · intro e he
              injection he with h'
              injection h' with hm _
              exact absurd hm (by decide)
          | false =>
            rcases hrest : rtGo req base (attempt + 1) r with ⟨resp', err', calls', closed'⟩
            have hval : rtGo req base attempt (r + 1) =
                ⟨resp', err', calls' + 1, attempt :: closed'⟩ := by
              conv_lhs => rw [rtGo]
              rw [hcl, hb]
              simp only [hr, hcx, Bool.not_true, Bool.false_eq_true, if_false, hrest]
            obtain ⟨h1, h2, h3, h4⟩ :=
              RunResult.mk.injEq .. ▸ (hval.symm.trans heq)
            subst h1; subst h2; subst h3; subst h4
            obtain ⟨ihresp, ihwait, ihclone, ihrt⟩ :=
              ih (attempt + 1) resp' err' calls' closed' hrest
            refine ⟨?_, ?_, ?_, ?_⟩
            · intro p hp
              obtain ⟨hle, hcalls, hclosed, hnot⟩ := ihresp p hp
              refine ⟨by omega, by omega, ?_, ?_⟩
              · rw [hclosed,
                  show p.attempt - attempt = (p.attempt - (attempt + 1)) + 1 from by omega,
                  List.range'_succ]
              · intro hmem
                rcases List.mem_cons.mp hmem with hmem | hmem
                · omega
                · exact hnot hmem
            · intro e he
              rw [ihwait e he, List.range'_succ]
            · intro e he
              rw [ihclone e he, List.range'_succ]
            · intro e he
              obtain ⟨hc1, hclosed⟩ := ihrt e he
              refine ⟨by omega, ?_⟩
              rw [hclosed, show calls' + 1 - 1 = (calls' - 1) + 1 from by omega,
                List.range'_succ]

/-! ## Claim theorems -/

/-- C1 counterexample: the claim "for every string without 3 or more
consecutive spaces, `Decode(Encode(s)) == s`" fails at `"a  b"`, which
contains only two consecutive spaces yet does not round-trip. -/
theorem C1_counterexample :
    hasTripleSpace ['a', ' ', ' ', 'b'] = false ∧
      Decode (Encode ['a', ' ', ' ', 'b']) ≠ ['a', ' ', ' ', 'b'] := by
  decide

/-- C1 (amended): `Decode(Encode(s)) == s` for every string that contains
no `\x00`/`\x01` byte, no `~` directly before one of the escape letters
q, p, h, a, l, g, b, s, n, no apostrophe directly before an apostrophe or
a double quote, and no space directly before a space or an underscore. -/
theorem C1_theorem (s : List Char) (h : Good s) : Decode (Encode s) = s :=
  roundtrip_aux h.1 h.2

/-- C1 witness: the specification's own example `it's a "test"` satisfies
the side condition and round-trips. -/
theorem C1_witness :
    Good ['i', 't', '\'', 's', ' ', 'a', ' ', '"', 't', 'e', 's', 't', '"'] ∧
      Decode (Encode ['i', 't', '\'', 's', ' ', 'a', ' ', '"', 't', 'e', 's', 't', '"']) =
        ['i', 't', '\'', 's', ' ', 'a', ' ', '"', 't', 'e', 's', 't', '"'] :=
  ⟨by decide, C1_theorem _ (by decide)⟩

/-- C2: `shouldRetry(code)` is true exactly for 429 and 500..504, and in
particular false for 200, 301, 400, 401, 404 and 505. -/
theorem C2_theorem :
    (∀ code : Int, shouldRetry code = true ↔
      (code = 429 ∨ (500 ≤ code ∧ code ≤ 504))) ∧
    shouldRetry 200 = false ∧ shouldRetry 301 = false ∧
    shouldRetry 400 = false ∧ shouldRetry 401 = false ∧
    shouldRetry 404 = false ∧ shouldRetry 505 = false ∧
    shouldRetry 429 = true ∧ shouldRetry 500 = true ∧ shouldRetry 504 = true := by
  refine ⟨?_, by decide, by decide, by decide, by decide, by decide, by decide,
    by decide, by decide, by decide⟩
  intro code
  unfold shouldRetry
  simp [Bool.or_eq_true, Bool.and_eq_true, decide_eq_true_iff, beq_iff_eq]

/-- C3: against a server that answers 500 on every attempt, with
`maxRetries = 3`, exactly 4 attempts are made, the bodies of the first
three are closed, and the final 500 response is returned with no error. -/
theorem C3_theorem (req : Request) (base : Nat → BaseResult)
    (hclone : ∀ i, (if req.hasBody then req.getBodyErr i else none) = none)
    (hcancel : ∀ i, req.ctxDoneDuringWait i = false)
    (h500 : ∀ i, base i = .resp 500) :
    RoundTrip req base 3 = ⟨some ⟨3, 500⟩, none, 4, [0, 1, 2]⟩ := by
  unfold RoundTrip
  rw [rtGo_const_retryable req base 500 hclone hcancel h500 (by decide) 3 0]
  decide

/-- C3 witness: the concrete run with no body and no cancellation. -/
theorem C3_witness :
    RoundTrip plainRequest (alwaysStatus 500) 3 =
      ⟨some ⟨3, 500⟩, none, 4, [0, 1, 2]⟩ :=
  C3_theorem plainRequest (alwaysStatus 500) (fun _ => rfl) (fun _ => rfl)
    (fun _ => rfl)

/-- C4: a transport-level error on any attempt is returned immediately —
wrapped, with a nil response and exactly one call from that point —
regardless of how many retries remain. -/
theorem C4_theorem (req : Request) (base : Nat → BaseResult) (e : GoError)
    (attempt remaining : Nat)
    (hclone : (if req.hasBody then req.getBodyErr attempt else none) = none)
    (herr : base attempt = .err e) :
    rtGo req base attempt remaining =
      ⟨none, some (.wrapped "round trip" e), 1, []⟩ := by
  cases remaining <;> simp [rtGo, hclone, herr]

/-- C4 witness: a transport failure on the second attempt with two retries
remaining returns at once. -/
theorem C4_witness :
    rtGo plainRequest errorProneBase 1 2 =
      ⟨none, some (.wrapped "round trip" (.simple "connection refused")), 1, []⟩ :=
  C4_theorem plainRequest errorProneBase (.simple "connection refused") 1 2 rfl rfl

/-- C5: if the context's cancellation fires during the backoff wait, the
loop returns at once with the wrapped context error, a nil response, the
pending body closed, and no further attempts made, whatever the remaining
budget. -/
theorem C5_theorem (req : Request) (base : Nat → BaseResult) (code : Int)
    (attempt r : Nat)
    (hclone : (if req.hasBody then req.getBodyErr attempt else none) = none)
    (hresp : base attempt = .resp code) (hretry : shouldRetry code = true)
    (hcancel : req.ctxDoneDuringWait attempt = true) :
    rtGo req base attempt (r + 1) =
      ⟨none, some (.wrapped "retry wait" req.ctxErr), 1, [attempt]⟩ := by
  simp [rtGo, hclone, hresp, hretry, hcancel]

/-- C5 witness: a cancellation during the first backoff stops a
`maxRetries = 3` run after a single attempt. -/
theorem C5_witness :
    RoundTrip cancelingRequest (alwaysStatus 500) 3 =
      ⟨none, some (.wrapped "retry wait" (.simple "context canceled")), 1, [0]⟩ :=
  C5_theorem cancelingRequest (alwaysStatus 500) 500 0 2 rfl rfl (by decide) rfl

/-- C6 counterexample: the logging decorator does not return the error
value unchanged — it wraps it. -/
theorem C6_counterexample :
    loggingRoundTrip (.err (.simple "connection refused")) ≠
      .err (.simple "connection refused") := by
  decide

/-- C6 (amended): the logging decorator preserves the success/error
outcome: a success passes through with the response unchanged, and a
failure returns the base error wrapped in the fixed
"logging round trip" context (inner error preserved). -/
theorem C6_theorem :
    (∀ resp, loggingRoundTrip (.ok resp) = .ok resp) ∧
    (∀ e, loggingRoundTrip (.err e) = .err (.wrapped "logging round trip" e)) :=
  ⟨fun _ => rfl, fun _ => rfl⟩

/-- C7 counterexample: on the immediate-success exit path the returned
response's body is not closed by `RoundTrip`, so the claim "the current
attempt's response body is fully closed ... on every exit path (success,
...)" fails. -/
theorem C7_counterexample :
    (RoundTrip plainRequest (alwaysStatus 200) 3).resp = some ⟨0, 200⟩ ∧
      (RoundTrip plainRequest (alwaysStatus 200) 3).closed = [] := by
  decide

/-- C7 witness: a run that retries twice and then exhausts its budget
closes exactly the two abandoned bodies and not the returned one. -/
theorem C7_witness :
    (0 : Nat) ≤ (2 : Nat) ∧ (3 : Nat) = 2 - 0 + 1 ∧
      ([0, 1] : List Nat) = List.range' 0 (2 - 0) ∧
      (2 : Nat) ∉ ([0, 1] : List Nat) :=
  (C7_theorem plainRequest (alwaysStatus 500) 2 0 (some ⟨2, 500⟩) none 3 [0, 1]
    (by decide)).1 ⟨2, 500⟩ rfl

/-- C8: `Encode("a  b")` (two spaces) is `"a__b"`, which decodes to
`"a_b"` — a literal underscore — so the two-space input is not recovered;
the code computes exactly these values. -/
theorem C8_theorem :
    Encode ['a', ' ', ' ', 'b'] = ['a', '_', '_', 'b'] ∧
      Decode ['a', '_', '_', 'b'] = ['a', '_', 'b'] ∧
      Decode (Encode ['a', ' ', ' ', 'b']) ≠ ['a', ' ', ' ', 'b'] := by
  decide

/-- C9: literal underscores and dashes are doubled before spaces are
converted, so `Encode("under_score") = "under__score"` and
`Encode("dash-case") = "dash--case"`. -/
theorem C9_theorem :
    Encode ['u', 'n', 'd', 'e', 'r', '_', 's', 'c', 'o', 'r', 'e'] =
      ['u', 'n', 'd', 'e', 'r', '_', '_', 's', 'c', 'o', 'r', 'e'] ∧
    Encode ['d', 'a', 's', 'h', '-', 'c', 'a', 's', 'e'] =
      ['d', 'a', 's', 'h', '-', '-', 'c', 'a', 's', 'e'] := by
  decide

/-- Characters of `encChar c` other than `c` itself are never the
placeholder bytes `\x00` or `\x01`. -/
lemma encChar_ctrl {c a : Char} (ha : a = '\x00' ∨ a = '\x01')
    (h : a ∈ encChar c) : a = c := by
  rcases encChar_info c with ⟨he, -⟩ | ⟨-, he⟩ | ⟨-, he⟩ | ⟨-, he⟩ | ⟨-, he⟩ | ⟨y, he, hy, -⟩
  · rw [he] at h
    simpa using h
  · rw [he] at h
    rcases ha with rfl | rfl <;> exact absurd h (by decide)
  · rw [he] at h
    rcases ha with rfl | rfl <;> exact absurd h (by decide)
  · rw [he] at h
    rcases ha with rfl | rfl <;> exact absurd h (by decide)
  · rw [he] at h
    rcases ha with rfl | rfl <;> exact absurd h (by decide)
  · rw [he] at h
    simp at h
    rcases h with rfl | rfl
    · rcases ha with h' | h' <;> exact absurd h' (by decide)
    · rcases ha with h' | h' <;> · rw [h'] at hy; exact absurd hy (by decide)

/-- C10: `Decode` turns every `\x00` into `_` and every `\x01` into `-`
(they are its internal placeholders, never present in its own output),
while `Encode` never produces either byte from an input that lacks it; in
particular `Decode("\x00") = "_"` and `Decode("\x01") = "-"` although the
inputs contain no encoded sequence. -/
theorem C10_theorem :
    Decode ['\x00'] = ['_'] ∧ Decode ['\x01'] = ['-'] ∧
    (∀ s : List Char, '\x00' ∉ Decode s ∧ '\x01' ∉ Decode s) ∧
    (∀ s : List Char, '\x00' ∉ s → '\x00' ∉ Encode s) ∧
    (∀ s : List Char, '\x01' ∉ s → '\x01' ∉ Encode s) := by
  refine ⟨by decide, by decide, ?_, ?_, ?_⟩
  · intro s
    constructor
    · simp only [Decode]
      intro h
      rcases mem_replaceAll' h with h | h
      · rcases mem_replaceAll' h with h | h
        · exact not_mem_replaceAll_single (by decide) _ h
        · exact absurd h (by decide)
      · exact absurd h (by decide)
    · simp only [Decode]
      exact not_mem_replaceAll_single (by decide) _
  · intro s hs h
    rw [encode_eq_flatMap] at h
    rcases List.mem_flatMap.mp h with ⟨c, hc, hmem⟩
    exact hs ((encChar_ctrl (Or.inl rfl) hmem) ▸ hc)
  · intro s hs h
    rw [encode_eq_flatMap] at h
    rcases List.mem_flatMap.mp h with ⟨c, hc, hmem⟩
    exact hs ((encChar_ctrl (Or.inr rfl) hmem) ▸ hc)

/-- C10 witness: an input without the placeholder bytes yields an encoding
without them. -/
theorem C10_witness :
    ('\x00' ∉ (['a', 'b'] : List Char)) ∧ '\x00' ∉ Encode ['a', 'b'] :=
  ⟨by decide, C10_theorem.2.2.2.1 ['a', 'b'] (by decide)⟩

end Memelink
